import Mathlib

/-!
Verification of the flash-fft-conv depthwise 1-D convolution kernel
(`csrc/flashfftconv/conv1d/conv1d_blh.cu`).

Embedding conventions:
- CUDA `uint` values are modelled as `ℕ`.  Subtraction is the only place
  where 32-bit wrap-around actually occurs for realistic tensor sizes, so
  subtraction is modelled exactly as `sub32` (arithmetic modulo `2^32`);
  additions and index products are plain `ℕ` (theorems carry explicit
  `< 2^32` bounds where the wrap could matter).
- The three numeric element representations (`__half2`, `__nv_bfloat162`,
  `float2`) are 2-wide packed pairs.  The kernels are C++ templates whose
  code is identical for the three types, so they are embedded once,
  generically over a scalar type `α` with `Mul`, `Add` and `Zero`
  (a packed value is `α × α`).  Concrete evaluations use `α = ℚ`.
- A kernel launch is modelled by the list of write events (flat output
  index together with the written packed value) produced by every thread
  of the grid, folded over an explicit machine state whose only mutable
  field is `out` (mirroring the fact that the CUDA code assigns only to
  `out`).  `out` starts as `fun _ => none` (`torch::empty` leaves the
  freshly allocated memory undefined).
-/

/-- The modulus `2^32` of CUDA `uint` arithmetic. -/
def W32 : ℕ := 4294967296

/-- Unsigned 32-bit subtraction `a - b` (for `a, b < 2^32`). -/
def sub32 (a b : ℕ) : ℕ := (a + (W32 - b)) % W32

/-- Ceiling division `ceil(a / b)` on naturals; the dispatcher computes grid sizes with
`ceil` over `double`, which is exact for tensor-sized operands. -/
def cdiv (a b : ℕ) : ℕ := (a + b - 1) / b

-- Launch-geometry constants from the source.
def BX : ℕ := 512
def BY : ℕ := 1
def BZ : ℕ := 1
def TILE_SIZE_Y : ℕ := 4
def TILE_SIZE_X : ℕ := 2

/-- Lane-wise fused multiply-add `__hfma2(a, b, c)` on packed pairs.
The source defines this explicitly for `float2`; for `__half2` and
`__nv_bfloat162` the CUDA intrinsic computes the same lane-wise `a*b+c`. -/
def __hfma2 {α : Type} [Mul α] [Add α] (a b c : α × α) : α × α :=
  (a.1 * b.1 + c.1, a.2 * b.2 + c.2)

/-- Padding-aware sampler `get_u` ("trick to do padding in place").
Generic form of the three identical overloads; `0 : α × α` is the packed
zero that each overload builds with its representation's constructor. -/
def get_u {α : Type} [Zero α] (u : ℕ → α × α)
    (L_eff l p b k d L D K : ℕ) : α × α :=
  if l + k < p ∨ sub32 L_eff (p + 1) < l + k then 0
  else u (b * L * D + (l + k - p) * D + d)

/-- Constructor `__float2half2_rn(x)`: packed `__half2` with both lanes `x`. -/
def __float2half2_rn (x : ℚ) : ℚ × ℚ := (x, x)

/-- Constructor `__float2bfloat162_rn(x)`: packed `__nv_bfloat162` with both lanes `x`. -/
def __float2bfloat162_rn (x : ℚ) : ℚ × ℚ := (x, x)

/-- Constructor `make_float2(x, y)`: packed `float2`. -/
def make_float2 (x y : ℚ) : ℚ × ℚ := (x, y)

/-- The `__half2` overload of `get_u`, transcribed separately. -/
def get_u_half2 (u : ℕ → ℚ × ℚ) (L_eff l p b k d L D K : ℕ) : ℚ × ℚ :=
  if l + k < p ∨ sub32 L_eff (p + 1) < l + k then __float2half2_rn 0
  else u (b * L * D + (l + k - p) * D + d)

/-- The `__nv_bfloat162` overload of `get_u`, transcribed separately. -/
def get_u_bfloat162 (u : ℕ → ℚ × ℚ) (L_eff l p b k d L D K : ℕ) : ℚ × ℚ :=
  if l + k < p ∨ sub32 L_eff (p + 1) < l + k then __float2bfloat162_rn 0
  else u (b * L * D + (l + k - p) * D + d)

/-- The `float2` overload of `get_u`, transcribed separately. -/
def get_u_float2 (u : ℕ → ℚ × ℚ) (L_eff l p b k d L D K : ℕ) : ℚ × ℚ :=
  if l + k < p ∨ sub32 L_eff (p + 1) < l + k then make_float2 0 0
  else u (b * L * D + (l + k - p) * D + d)

/-- Unrolled width-3 helper `_conv1d_k_3`: value computed (and written to
`out[b*D*L_out + (l+t)*D + d]`) by the manually unrolled width-3 body. -/
def _conv1d_k_3 {α : Type} [Mul α] [Add α] [Zero α]
    (u weights bias : ℕ → α × α)
    (padding b l d t L D K L_eff L_out : ℕ) : α × α :=
  let temp_sum0 := bias d
  let temp_sum1 :=
    __hfma2 (get_u u L_eff (l + t) padding b 0 d L D K) (weights (0 * D + d)) temp_sum0
  let temp_sum2 :=
    __hfma2 (get_u u L_eff (l + t) padding b 1 d L D K) (weights (1 * D + d)) temp_sum1
  __hfma2 (get_u u L_eff (l + t) padding b 2 d L D K) (weights (2 * D + d)) temp_sum2

/-- Inner body of the generic `conv1d_kernel`: value written to
`out[b*D*L_out + (l+t)*D + d]` after the `for k in 0..K` loop. -/
def conv1d_kernel_body {α : Type} [Mul α] [Add α] [Zero α]
    (u weights bias : ℕ → α × α)
    (padding b l d t L D K L_eff L_out : ℕ) : α × α :=
  (List.range K).foldl
    (fun temp_sum k =>
      __hfma2 (get_u u L_eff (l + t) padding b k d L D K) (weights (k * D + d)) temp_sum)
    (bias d)

/-- Write events (flat `out` index, packed value) produced by one thread
`(threadIdx = (tx, ty, tz))` of block `(blockIdx = (bx, byi, bz))`,
for either kernel variant (`ef` is the per-element body): the
`TILE_SIZE_X` channel loop, the `d < D && b < B` bounds check, the
`TILE_SIZE_Y` position loop and the `l + t < L_eff - K + 1` guard
(`L_eff - K + 1` evaluated in `uint` arithmetic). -/
def kernelBodyWrites {α : Type}
    (ef : (ℕ → α × α) → (ℕ → α × α) → (ℕ → α × α) →
      ℕ → ℕ → ℕ → ℕ → ℕ → ℕ → ℕ → ℕ → ℕ → ℕ → α × α)
    (u weights bias : ℕ → α × α)
    (padding B L L_out L_eff D K : ℕ)
    (bx byi bz tx ty tz : ℕ) : List (ℕ × (α × α)) :=
  let d_block := bx * BX * TILE_SIZE_X
  let l := byi * BY * TILE_SIZE_Y + ty * TILE_SIZE_Y
  let b := bz * BZ + tz
  (List.range TILE_SIZE_X).flatMap (fun i =>
    let d := d_block + tx + i * BX
    if d < D ∧ b < B then
      (List.range TILE_SIZE_Y).filterMap (fun t =>
        if l + t < (sub32 L_eff K + 1) % W32 then
          some (b * D * L_out + (l + t) * D + d,
                ef u weights bias padding b l d t L D K L_eff L_out)
        else none)
    else [])

/-- All write events of a kernel launch over grid `(gx, gy, gz)` with
block dimensions `(BX, BY, BZ)`. -/
def launchWrites {α : Type}
    (ef : (ℕ → α × α) → (ℕ → α × α) → (ℕ → α × α) →
      ℕ → ℕ → ℕ → ℕ → ℕ → ℕ → ℕ → ℕ → ℕ → ℕ → α × α)
    (u weights bias : ℕ → α × α)
    (padding B L L_out L_eff D K : ℕ)
    (gx gy gz : ℕ) : List (ℕ × (α × α)) :=
  (List.range gx).flatMap (fun bx =>
  (List.range gy).flatMap (fun byi =>
  (List.range gz).flatMap (fun bz =>
  (List.range BX).flatMap (fun tx =>
  (List.range BY).flatMap (fun ty =>
  (List.range BZ).flatMap (fun tz =>
    kernelBodyWrites ef u weights bias padding B L L_out L_eff D K bx byi bz tx ty tz))))))

/-- Device memory visible to a launch: the three read-only inputs and the
output buffer. `out` maps a flat index to `none` while that element is
still undefined (`torch::empty`) and to `some v` once written. -/
structure ConvState (α : Type) where
  u : ℕ → α × α
  weights : ℕ → α × α
  bias : ℕ → α × α
  out : ℕ → Option (α × α)

/-- Execute one write event: only the `out` buffer changes (the CUDA
kernels assign only to `out`). -/
def applyWrite {α : Type} (s : ConvState α) (e : ℕ × (α × α)) : ConvState α :=
  ⟨s.u, s.weights, s.bias, Function.update s.out e.1 (some e.2)⟩

/-- Execute a launch's write events against a state. -/
def runWrites {α : Type} (s : ConvState α) (l : List (ℕ × (α × α))) : ConvState α :=
  l.foldl applyWrite s

/-- Element dtype of the input tensor: the closed supported set plus
everything else. -/
inductive DType : Type
  | f16 : DType
  | bf16 : DType
  | f32 : DType
  | other : DType
deriving DecidableEq

/-- Which kernel variant a dispatch launches. -/
inductive KVariant : Type
  | k3 : KVariant
  | generic : KVariant
deriving DecidableEq

/-- Element body of each kernel variant. -/
def elemOf {α : Type} [Mul α] [Add α] [Zero α] (v : KVariant) :
    (ℕ → α × α) → (ℕ → α × α) → (ℕ → α × α) →
      ℕ → ℕ → ℕ → ℕ → ℕ → ℕ → ℕ → ℕ → ℕ → ℕ → α × α :=
  match v with
  | KVariant.k3 => _conv1d_k_3
  | KVariant.generic => conv1d_kernel_body

/-- Result of `conv1d_cuda_blh`: the computed `l_out`, which kernel (if
any) was launched, whether the "Unsupported datatype" message was
printed, the launch's write events, and the final memory state. -/
structure ConvResult (α : Type) where
  l_out : ℕ
  launched : Option KVariant
  unsupported : Bool
  writes : List (ℕ × (α × α))
  final : ConvState α

/-- Result of launching kernel variant `v` with the geometry and
arguments the dispatcher computes: `l_eff = l + 2*padding`,
`gridDims = (ceil(d / (BX*TILE_SIZE_X*2)), ceil((l_eff-k+1) / (BY*TILE_SIZE_Y)), ceil(b / BZ))`,
`l_out = l + 2*padding - k + 1` (in `uint` arithmetic this equals the
kernel-side `l_eff - k + 1`), and channel count `ceil(d/2)` packed
pairs. -/
def launchResult {α : Type} [Mul α] [Add α] [Zero α]
    (v : KVariant) (u weights bias : ℕ → α × α)
    (B L D padding K : ℕ) : ConvResult α :=
  let l_eff := (L + 2 * padding) % W32
  let gx := cdiv D (BX * TILE_SIZE_X * 2)
  let gy := cdiv ((sub32 l_eff K + 1) % W32) (BY * TILE_SIZE_Y)
  let gz := cdiv B BZ
  let l_out := (sub32 l_eff K + 1) % W32
  let Dp := D / 2
  let ws := launchWrites (elemOf v) u weights bias padding B L l_out l_eff Dp K gx gy gz
  ConvResult.mk l_out (some v) false ws
    (runWrites (ConvState.mk u weights bias (fun _ => none)) ws)

/-- Host dispatcher `conv1d_cuda_blh(u, weight, bias, padding)`.
`B, L, D` are `u.size(0..2)`, `K` is `weight.size(0)`.  It selects the
kernel by `k == 3` and dtype: for `k == 3`, float16 launches the generic
`conv1d_kernel` while bfloat16 and float32 launch `conv1d_kernel_k_3`;
otherwise every supported dtype launches `conv1d_kernel`; an unsupported
dtype only prints "Unsupported datatype" and returns the untouched
(uninitialized) output tensor. -/
def conv1d_cuda_blh {α : Type} [Mul α] [Add α] [Zero α]
    (dt : DType) (u weights bias : ℕ → α × α)
    (B L D padding K : ℕ) : ConvResult α :=
  let l_eff := (L + 2 * padding) % W32
  let l_out := (sub32 l_eff K + 1) % W32
  let s0 : ConvState α := ConvState.mk u weights bias (fun _ => none)
  if K = 3 then
    match dt with
    | DType.f16 => launchResult KVariant.generic u weights bias B L D padding K
    | DType.bf16 => launchResult KVariant.k3 u weights bias B L D padding K
    | DType.f32 => launchResult KVariant.k3 u weights bias B L D padding K
    | DType.other => ConvResult.mk l_out none true [] s0
  else
    match dt with
    | DType.f16 => launchResult KVariant.generic u weights bias B L D padding K
    | DType.bf16 => launchResult KVariant.generic u weights bias B L D padding K
    | DType.f32 => launchResult KVariant.generic u weights bias B L D padding K
    | DType.other => ConvResult.mk l_out none true [] s0

/-- Kernel variant the dispatcher selects for a supported dtype. -/
def variantFor (dt : DType) (K : ℕ) : KVariant :=
  if K = 3 ∧ (dt = DType.bf16 ∨ dt = DType.f32) then KVariant.k3 else KVariant.generic

/-- Lane `ch % 2` of a packed pair: scalar channel `ch` of the pair that
stores channels `2c` and `2c+1`. -/
def lane {α : Type} (ch : ℕ) (pr : α × α) : α :=
  if ch % 2 = 0 then pr.1 else pr.2

/-- Unpacked scalar view of a packed `[B, L, Dp]` input: element
`(b, j, ch)` is lane `ch % 2` of packed entry `(b, j, ch / 2)`. -/
def unpackedInput {α : Type} (u : ℕ → α × α) (L Dp : ℕ) (b j ch : ℕ) : α :=
  lane ch (u (b * L * Dp + j * Dp + ch / 2))

/-- Unpacked scalar view of a packed `[K, Dp]` weight. -/
def unpackedWeight {α : Type} (w : ℕ → α × α) (Dp : ℕ) (k ch : ℕ) : α :=
  lane ch (w (k * Dp + ch / 2))

/-- Unpacked scalar view of a packed `[Dp]` bias. -/
def unpackedBias {α : Type} (bs : ℕ → α × α) (ch : ℕ) : α :=
  lane ch (bs (ch / 2))

/-- Modelled from the spec: reference unpadded depthwise convolution on
the explicitly zero-padded input,
`out[b,l,d] = bias[d] + sum over k of padded_input[b,l+k,d] * weight[k,d]`
with `padded_input[b,j,d] = input[b,j-p,d]` for `p ≤ j < p + L` and `0`
outside. -/
def spec_padded_conv {α : Type} [AddCommMonoid α] [Mul α]
    (uS : ℕ → ℕ → ℕ → α) (wS : ℕ → ℕ → α) (bS : ℕ → α)
    (L K p : ℕ) (b l ch : ℕ) : α :=
  bS ch + ∑ k ∈ Finset.range K,
    (if p ≤ l + k ∧ l + k < p + L then uS b (l + k - p) ch else 0) * wS k ch

/-- Bounds-checked (Option-returning) read of a packed buffer of `size`
elements. -/
def readPacked {α : Type} (u : ℕ → α × α) (size idx : ℕ) : Option (α × α) :=
  if idx < size then some (u idx) else none

/-- Sampler `get_u` with its input read made total: `none` exactly when the
non-zero branch would read out of bounds of the `[B, L, D]` buffer. -/
def get_u_checked {α : Type} [Zero α] (u : ℕ → α × α)
    (size L_eff l p b k d L D K : ℕ) : Option (α × α) :=
  if l + k < p ∨ sub32 L_eff (p + 1) < l + k then some 0
  else readPacked u size (b * L * D + (l + k - p) * D + d)

-- Concrete data for the spec's worked example (B=1, L=5, D=2, K=3, p=1):
-- input rows [1,1],[2,2],[3,3],[4,4],[5,5], all-ones weight, zero bias,
-- packed into pairs (Dp = 1).
def exampleU : ℕ → ℤ × ℤ := fun j => ((j : ℤ) + 1, (j : ℤ) + 1)
def exampleW : ℕ → ℤ × ℤ := fun _ => (1, 1)
def exampleB : ℕ → ℤ × ℤ := fun _ => (0, 0)

/-! ### Arithmetic helper lemmas -/

theorem W32_pos : 0 < W32 := by decide

theorem sub32_of_le {a b : ℕ} (hba : b ≤ a) (ha : a < W32) :
    sub32 a b = a - b := by
  unfold sub32
  have hb : b ≤ W32 := le_trans hba (le_of_lt ha)
  have h1 : a + (W32 - b) = (a - b) + W32 := by omega
  rw [h1, Nat.add_mod_right, Nat.mod_eq_of_lt (by omega)]

theorem sub32_succ_self {a : ℕ} (ha : a < W32) :
    sub32 a (a + 1) = W32 - 1 := by
  unfold sub32
  have h1 : a + (W32 - (a + 1)) = W32 - 1 := by omega
  rw [h1, Nat.mod_eq_of_lt (by omega)]

theorem cdiv_mul_ge (a : ℕ) {b : ℕ} (hb : 0 < b) : a ≤ cdiv a b * b := by
  unfold cdiv
  rcases Nat.eq_zero_or_pos a with ha | ha
  · simp [ha]
  · have hrw : a + b - 1 = (a - 1) + b := by omega
    rw [hrw, Nat.add_div_right _ hb, Nat.add_mul, Nat.one_mul]
    have h3 := Nat.div_add_mod (a - 1) b
    rw [Nat.mul_comm] at h3
    have h4 : (a - 1) % b < b := Nat.mod_lt _ hb
    set X := (a - 1) / b * b with hX
    omega

/-- Under the no-overflow conditions `K ≤ L + 2p + 1 < 2^32`, the
dispatcher's `uint` expression for `l_out` equals `L + 2p + 1 - K`. -/
theorem uint_l_out_eq {L padding K : ℕ} (hK : K ≤ L + 2 * padding + 1)
    (hW : L + 2 * padding + 1 < W32) :
    (sub32 ((L + 2 * padding) % W32) K + 1) % W32 = L + 2 * padding + 1 - K := by
  have hle : (L + 2 * padding) % W32 = L + 2 * padding :=
    Nat.mod_eq_of_lt (by omega)
  rw [hle]
  rcases Nat.lt_or_ge (L + 2 * padding) K with hlt | hge
  · have hKeq : K = L + 2 * padding + 1 := by omega
    rw [hKeq, sub32_succ_self (by omega)]
    have : W32 - 1 + 1 = W32 := by omega
    rw [this, Nat.mod_self]
    omega
  · rw [sub32_of_le hge (by omega), Nat.mod_eq_of_lt (by omega)]
    omega

/-! ### Dispatcher characterization lemmas -/

theorem conv1d_l_out {α : Type} [Mul α] [Add α] [Zero α]
    (dt : DType) (u weights bias : ℕ → α × α) (B L D padding K : ℕ) :
    (conv1d_cuda_blh dt u weights bias B L D padding K).l_out =
      (sub32 ((L + 2 * padding) % W32) K + 1) % W32 := by
  rcases dt <;> by_cases hK : K = 3 <;>
    simp [conv1d_cuda_blh, launchResult, hK]

theorem conv1d_eq_launchResult {α : Type} [Mul α] [Add α] [Zero α]
    (dt : DType) (u weights bias : ℕ → α × α) (B L D padding K : ℕ)
    (h : dt ≠ DType.other) :
    conv1d_cuda_blh dt u weights bias B L D padding K =
      launchResult (variantFor dt K) u weights bias B L D padding K := by
  rcases dt <;> by_cases hK : K = 3 <;>
    simp [conv1d_cuda_blh, variantFor, hK] at h ⊢

/-! ### List and sum helper lemmas -/

theorem runWrites_u {α : Type} (l : List (ℕ × (α × α))) (s : ConvState α) :
    (runWrites s l).u = s.u := by
  induction l generalizing s with
  | nil => rfl
  | cons e l ih => simpa [runWrites, applyWrite] using ih (applyWrite s e)

theorem runWrites_weights {α : Type} (l : List (ℕ × (α × α))) (s : ConvState α) :
    (runWrites s l).weights = s.weights := by
  induction l generalizing s with
  | nil => rfl
  | cons e l ih => simpa [runWrites, applyWrite] using ih (applyWrite s e)

theorem runWrites_bias {α : Type} (l : List (ℕ × (α × α))) (s : ConvState α) :
    (runWrites s l).bias = s.bias := by
  induction l generalizing s with
  | nil => rfl
  | cons e l ih => simpa [runWrites, applyWrite] using ih (applyWrite s e)

theorem runWrites_out {α : Type} (l : List (ℕ × (α × α))) (s : ConvState α) :
    (runWrites s l).out =
      l.foldl (fun (f : ℕ → Option (α × α)) e => Function.update f e.1 (some e.2)) s.out := by
  induction l generalizing s with
  | nil => rfl
  | cons e l ih => simpa [runWrites, applyWrite] using ih (applyWrite s e)

/-- Reading the result of a left fold of pointwise updates: the last
write to index `j` wins; with no write to `j` the initial map is read. -/
theorem foldl_update_apply {β : Type} (l : List (ℕ × β)) (f0 : ℕ → Option β) (j : ℕ) :
    (l.foldl (fun (f : ℕ → Option β) e => Function.update f e.1 (some e.2)) f0) j =
      (l.reverse.find? (fun e => e.1 == j)).elim (f0 j) (fun e => some e.2) := by
  induction l generalizing f0 with
  | nil => rfl
  | cons e l ih =>
    simp only [List.foldl_cons, List.reverse_cons, List.find?_append]
    rw [ih]
    cases hfind : l.reverse.find? (fun e => e.1 == j) with
    | some x => simp [Option.or]
    | none =>
      by_cases hj : e.1 = j
      · subst hj
        simp [Option.or, Function.update]
      · have hbeq : (e.1 == j) = false := by
          exact beq_eq_false_iff_ne.mpr hj
        simp [Option.or, hbeq, Function.update, Ne.symm hj]

theorem countP_flatMap_range {β : Type} (p : β → Bool) (f : ℕ → List β) (n : ℕ) :
    ((List.range n).flatMap f).countP p = ∑ x ∈ Finset.range n, (f x).countP p := by
  induction n with
  | zero => rfl
  | succ n ih =>
    rw [List.range_succ, List.flatMap_append, List.countP_append, ih,
      Finset.sum_range_succ]
    simp [List.flatMap]

theorem countP_filterMap_ite {β : Type} (p : β → Bool) (cond : ℕ → Prop)
    [DecidablePred cond] (e : ℕ → β) (m : ℕ) :
    ((List.range m).filterMap (fun t => if cond t then some (e t) else none)).countP p
      = ∑ t ∈ Finset.range m, if cond t ∧ p (e t) then 1 else 0 := by
  induction m with
  | zero => rfl
  | succ m ih =>
    rw [List.range_succ, List.filterMap_append, List.countP_append, ih,
      Finset.sum_range_succ]
    by_cases hc : cond m
    · by_cases hp : p (e m) <;> simp [hc, hp, List.countP, List.countP.go]
    · simp [hc]

theorem sum_ite_eq_range (n c : ℕ) :
    (∑ x ∈ Finset.range n, if x = c then (1 : ℕ) else 0) = if c < n then 1 else 0 := by
  rw [Finset.sum_ite_eq' (Finset.range n) c (fun _ => (1 : ℕ))]
  simp

theorem sum_range_shift (f : ℕ → ℕ) (a b : ℕ) :
    ∑ r ∈ Finset.range (a + b), f r =
      (∑ r ∈ Finset.range a, f r) + ∑ y ∈ Finset.range b, f (a + y) := by
  induction b with
  | zero => simp
  | succ b ih => rw [← Nat.add_assoc, Finset.sum_range_succ, ih, Finset.sum_range_succ]; omega

theorem sum_range_mul_decomp (f : ℕ → ℕ) (n m : ℕ) :
    ∑ x ∈ Finset.range n, ∑ y ∈ Finset.range m, f (x * m + y)
      = ∑ r ∈ Finset.range (n * m), f r := by
  induction n with
  | zero => simp
  | succ n ih =>
    rw [Finset.sum_range_succ, ih, Nat.succ_mul, sum_range_shift]

/-! ### Flat output-index decomposition -/

theorem base_decomp_inj {m x y x2 y2 : ℕ} (hy : y < m) (hy2 : y2 < m)
    (h : y + m * x = y2 + m * x2) : y = y2 ∧ x = x2 := by
  have h1 : (y + m * x) % m = y := by
    rw [Nat.add_mul_mod_self_left, Nat.mod_eq_of_lt hy]
  have h2 : (y2 + m * x2) % m = y2 := by
    rw [Nat.add_mul_mod_self_left, Nat.mod_eq_of_lt hy2]
  have hyy : y = y2 := by rw [← h1, ← h2, h]
  refine ⟨hyy, ?_⟩
  subst hyy
  have hm : 0 < m := Nat.pos_of_ne_zero (by rintro rfl; omega)
  have := Nat.add_left_cancel h
  exact Nat.eq_of_mul_eq_mul_left hm this

/-- Injectivity of the flat index `b*Dp*Lo + pos*Dp + ch` on in-bounds
coordinates. -/
theorem flat_index_inj {Dp Lo : ℕ} {b pos ch b2 pos2 ch2 : ℕ}
    (hpos : pos < Lo) (hch : ch < Dp) (hpos2 : pos2 < Lo) (hch2 : ch2 < Dp)
    (h : b2 * Dp * Lo + pos2 * Dp + ch2 = b * Dp * Lo + pos * Dp + ch) :
    b2 = b ∧ pos2 = pos ∧ ch2 = ch := by
  have hrw : ∀ a q c : ℕ, a * Dp * Lo + q * Dp + c = c + Dp * (q + Lo * a) := by
    intro a q c; ring
  rw [hrw, hrw] at h
  obtain ⟨hc, hrest⟩ := base_decomp_inj hch2 hch h
  obtain ⟨hq, hb⟩ := base_decomp_inj hpos2 hpos hrest
  exact ⟨hb, hq, hc⟩

/-- Upper bound of the flat index on in-bounds coordinates. -/
theorem flat_index_lt {B Dp Lo : ℕ} {b pos ch : ℕ}
    (hb : b < B) (hpos : pos < Lo) (hch : ch < Dp) :
    b * Dp * Lo + pos * Dp + ch < B * Dp * Lo := by
  have h1 : b * Dp * Lo + pos * Dp + ch < b * Dp * Lo + (pos + 1) * Dp := by
    rw [Nat.add_mul, Nat.one_mul]; omega
  have h2 : (pos + 1) * Dp ≤ Lo * Dp := Nat.mul_le_mul_right _ hpos
  have h3 : b * Dp * Lo + Lo * Dp = (b + 1) * Dp * Lo := by ring
  have h4 : (b + 1) * Dp * Lo ≤ B * Dp * Lo :=
    Nat.mul_le_mul_right _ (Nat.mul_le_mul_right _ hb)
  omega

/-- Every index below `B * Dp * Lo` decomposes as an in-bounds flat
output coordinate. -/
theorem flat_index_decompose {B Dp Lo idx : ℕ} (h : idx < B * Dp * Lo) :
    ∃ b pos ch, b < B ∧ pos < Lo ∧ ch < Dp ∧
      idx = b * Dp * Lo + pos * Dp + ch := by
  have hDp : 0 < Dp := by
    rcases Nat.eq_zero_or_pos Dp with h0 | h0
    · subst h0; simp at h
    · exact h0
  have hLo : 0 < Lo := by
    rcases Nat.eq_zero_or_pos Lo with h0 | h0
    · subst h0; simp at h
    · exact h0
  refine ⟨idx / (Dp * Lo), idx % (Dp * Lo) / Dp, idx % (Dp * Lo) % Dp, ?_, ?_, ?_, ?_⟩
  · rw [Nat.div_lt_iff_lt_mul (Nat.mul_pos hDp hLo)]
    calc idx < B * Dp * Lo := h
      _ = B * (Dp * Lo) := by ring
  · have hmod : idx % (Dp * Lo) < Dp * Lo := Nat.mod_lt _ (Nat.mul_pos hDp hLo)
    rw [Nat.div_lt_iff_lt_mul hDp]
    calc idx % (Dp * Lo) < Dp * Lo := hmod
      _ = Lo * Dp := by ring
  · exact Nat.mod_lt _ hDp
  · have h1 := Nat.div_add_mod idx (Dp * Lo)
    have h2 := Nat.div_add_mod (idx % (Dp * Lo)) Dp
    calc idx = Dp * Lo * (idx / (Dp * Lo)) + (Dp * (idx % (Dp * Lo) / Dp) + idx % (Dp * Lo) % Dp) := by
          rw [h2, h1]
      _ = idx / (Dp * Lo) * Dp * Lo + idx % (Dp * Lo) / Dp * Dp + idx % (Dp * Lo) % Dp := by
          ring

theorem countP_ite_nil {β : Type} (p : β → Bool) (c : Prop) [Decidable c] (x : List β) :
    (if c then x else []).countP p = if c then x.countP p else 0 := by
  split <;> rfl

theorem ite_sum_push (c : Prop) [Decidable c] (s : Finset ℕ) (f : ℕ → ℕ) :
    (if c then ∑ t ∈ s, f t else 0) = ∑ t ∈ s, if c then f t else 0 := by
  split <;> simp

theorem write_indicator {Dp Lo B b pos ch : ℕ}
    (hb : b < B) (hpos : pos < Lo) (hch : ch < Dp) (d2 b2 lt2 : ℕ) :
    (if d2 < Dp ∧ b2 < B then
      (if lt2 < Lo ∧ (b2 * Dp * Lo + lt2 * Dp + d2 == b * Dp * Lo + pos * Dp + ch) = true
        then (1 : ℕ) else 0) else 0)
    = (if b2 = b then 1 else 0) * ((if lt2 = pos then 1 else 0) * (if d2 = ch then 1 else 0)) := by
  have key : ((d2 < Dp ∧ b2 < B) ∧ lt2 < Lo ∧
      b2 * Dp * Lo + lt2 * Dp + d2 = b * Dp * Lo + pos * Dp + ch) ↔
      (b2 = b ∧ lt2 = pos ∧ d2 = ch) := by
    constructor
    · rintro ⟨⟨hd, hb2⟩, hlt, heq⟩
      exact flat_index_inj hpos hch hlt hd heq
    · rintro ⟨rfl, rfl, rfl⟩
      exact ⟨⟨hch, hb⟩, hpos, rfl⟩
  simp only [beq_iff_eq]
  by_cases hA : d2 < Dp ∧ b2 < B
  · by_cases hB : lt2 < Lo ∧ b2 * Dp * Lo + lt2 * Dp + d2 = b * Dp * Lo + pos * Dp + ch
    · obtain ⟨h1, h2, h3⟩ := key.mp ⟨hA, hB⟩
      simp [hA, hB, h1, h2, h3, hb, hpos, hch]
    · have hno : ¬(b2 = b ∧ lt2 = pos ∧ d2 = ch) := fun h => hB (key.mpr h).2
      rw [if_pos hA, if_neg hB]
      by_cases h1 : b2 = b <;> by_cases h2 : lt2 = pos <;> by_cases h3 : d2 = ch <;>
        simp [h1, h2, h3] <;> tauto
  · have hno : ¬(b2 = b ∧ lt2 = pos ∧ d2 = ch) := fun h => hA (key.mpr h).1
    rw [if_neg hA]
    by_cases h1 : b2 = b <;> by_cases h2 : lt2 = pos <;> by_cases h3 : d2 = ch <;>
      simp [h1, h2, h3] <;> tauto

theorem countP_launchWrites {α : Type}
    (ef : (ℕ → α × α) → (ℕ → α × α) → (ℕ → α × α) →
      ℕ → ℕ → ℕ → ℕ → ℕ → ℕ → ℕ → ℕ → ℕ → ℕ → α × α)
    (u w bs : ℕ → α × α)
    (padding B L Lo Le Dp K gx gy gz : ℕ)
    (hgb : (sub32 Le K + 1) % W32 = Lo)
    (hgz : B ≤ gz * BZ) (hgy : Lo ≤ gy * (BY * TILE_SIZE_Y))
    (hgx : Dp ≤ gx * (BX * TILE_SIZE_X))
    {b pos ch : ℕ} (hb : b < B) (hpos : pos < Lo) (hch : ch < Dp) :
    (launchWrites ef u w bs padding B L Lo Le Dp K gx gy gz).countP
      (fun e => e.1 == b * Dp * Lo + pos * Dp + ch) = 1 := by
  simp only [launchWrites, countP_flatMap_range, kernelBodyWrites, countP_ite_nil,
    countP_filterMap_ite, hgb, ite_sum_push]
  simp only [write_indicator hb hpos hch]
  simp only [BX, BY, BZ, TILE_SIZE_X, TILE_SIZE_Y, Finset.sum_range_one,
    Nat.mul_one, Nat.one_mul, Nat.mul_zero, Nat.zero_mul, Nat.add_zero]
  simp only [← Finset.mul_sum, ← Finset.sum_mul]
  have hgz1 : B ≤ gz := by simpa [BZ] using hgz
  have hgy1 : Lo ≤ gy * 4 := by simpa [BY, TILE_SIZE_Y] using hgy
  have hgx1 : Dp ≤ gx * 1024 := by
    have := hgx
    simp only [BX, TILE_SIZE_X] at this
    omega
  have eZ : (∑ bz ∈ Finset.range gz, if bz = b then (1 : ℕ) else 0) = 1 := by
    rw [sum_ite_eq_range, if_pos (by omega)]
  have eY : (∑ byi ∈ Finset.range gy, ∑ t ∈ Finset.range 4,
      if byi * 4 + t = pos then (1 : ℕ) else 0) = 1 := by
    rw [sum_range_mul_decomp (fun r => if r = pos then (1 : ℕ) else 0) gy 4,
      sum_ite_eq_range, if_pos (by omega)]
  have eX : (∑ bx ∈ Finset.range gx, ∑ tx ∈ Finset.range 512, ∑ i ∈ Finset.range 2,
      if bx * 512 * 2 + tx + i * 512 = ch then (1 : ℕ) else 0) = 1 := by
    have hiff : ∀ bx tx i : ℕ, (bx * 512 * 2 + tx + i * 512 = ch) ↔ ((bx * 2 + i) * 512 + tx = ch) := by
      intro bx tx i; omega
    simp only [hiff]
    rw [Finset.sum_congr rfl (fun bx _ => Finset.sum_comm),
      sum_range_mul_decomp
        (fun r => ∑ tx ∈ Finset.range 512, if r * 512 + tx = ch then (1 : ℕ) else 0) gx 2,
      sum_range_mul_decomp (fun q => if q = ch then (1 : ℕ) else 0) (gx * 2) 512,
      sum_ite_eq_range, if_pos (by omega)]
  rw [eZ, eY, eX]
  rfl

theorem mem_launchWrites {α : Type}
    (ef : (ℕ → α × α) → (ℕ → α × α) → (ℕ → α × α) →
      ℕ → ℕ → ℕ → ℕ → ℕ → ℕ → ℕ → ℕ → ℕ → ℕ → α × α)
    (u w bs : ℕ → α × α)
    (padding B L Lo Le Dp K gx gy gz : ℕ)
    (hgb : (sub32 Le K + 1) % W32 = Lo)
    {e : ℕ × (α × α)}
    (he : e ∈ launchWrites ef u w bs padding B L Lo Le Dp K gx gy gz) :
    ∃ b2 l2 t2 d2, b2 < B ∧ l2 + t2 < Lo ∧ d2 < Dp ∧
      e = (b2 * Dp * Lo + (l2 + t2) * Dp + d2,
           ef u w bs padding b2 l2 d2 t2 L Dp K Le Lo) := by
  simp only [launchWrites, List.mem_flatMap, List.mem_range] at he
  obtain ⟨bx, hbx, byi, hbyi, bz, hbz, tx, htx, ty, hty, tz, htz, he⟩ := he
  simp only [kernelBodyWrites, List.mem_flatMap, List.mem_range] at he
  obtain ⟨i, hi, he⟩ := he
  split at he
  case isTrue hcond =>
    rw [List.mem_filterMap] at he
    obtain ⟨t, ht, heq⟩ := he
    split at heq
    case isTrue hguard =>
      rw [hgb] at hguard
      exact ⟨bz * BZ + tz, byi * BY * TILE_SIZE_Y + ty * TILE_SIZE_Y, t,
        bx * BX * TILE_SIZE_X + tx + i * BX, hcond.2, hguard, hcond.1,
        (Option.some_inj.mp heq).symm⟩
    case isFalse hguard => cases heq
  case isFalse hcond => cases he

theorem elemOf_shift {α : Type} [Mul α] [Add α] [Zero α] (v : KVariant)
    (u w bs : ℕ → α × α) (padding b l d t L D K Le Lo : ℕ) :
    elemOf v u w bs padding b l d t L D K Le Lo =
      elemOf v u w bs padding b (l + t) d 0 L D K Le Lo := by
  cases v <;> simp [elemOf, _conv1d_k_3, conv1d_kernel_body]

theorem launch_out_eq {α : Type} [Mul α] [Add α] [Zero α] (v : KVariant)
    (u w bs : ℕ → α × α) (s0 : ConvState α)
    (padding B L Lo Le Dp K gx gy gz : ℕ)
    (hgb : (sub32 Le K + 1) % W32 = Lo)
    (hgz : B ≤ gz * BZ) (hgy : Lo ≤ gy * (BY * TILE_SIZE_Y))
    (hgx : Dp ≤ gx * (BX * TILE_SIZE_X))
    {b pos ch : ℕ} (hb : b < B) (hpos : pos < Lo) (hch : ch < Dp) :
    (runWrites s0 (launchWrites (elemOf v) u w bs padding B L Lo Le Dp K gx gy gz)).out
        (b * Dp * Lo + pos * Dp + ch)
      = some (elemOf v u w bs padding b pos ch 0 L Dp K Le Lo) := by
  have hcount := countP_launchWrites (elemOf v) u w bs padding B L Lo Le Dp K gx gy gz
    hgb hgz hgy hgx hb hpos hch
  have hex : ∃ e ∈ launchWrites (elemOf v) u w bs padding B L Lo Le Dp K gx gy gz,
      (fun e => e.1 == b * Dp * Lo + pos * Dp + ch) e := by
    rw [← List.countP_pos_iff]
    · rw [hcount]; omega
  rw [runWrites_out, foldl_update_apply]
  cases hfind : (launchWrites (elemOf v) u w bs padding B L Lo Le Dp K gx gy gz).reverse.find?
      (fun e => e.1 == b * Dp * Lo + pos * Dp + ch) with
  | none =>
    rw [List.find?_eq_none] at hfind
    obtain ⟨e, he, hpe⟩ := hex
    exact absurd hpe (by simpa using hfind e (List.mem_reverse.mpr he))
  | some e =>
    have hpe := List.find?_some hfind
    have hemem : e ∈ launchWrites (elemOf v) u w bs padding B L Lo Le Dp K gx gy gz :=
      List.mem_reverse.mp (List.mem_of_find?_eq_some hfind)
    obtain ⟨b2, l2, t2, d2, hb2, hlt2, hd2, heq⟩ :=
      mem_launchWrites (elemOf v) u w bs padding B L Lo Le Dp K gx gy gz hgb hemem
    rw [heq] at hpe
    simp only [beq_iff_eq] at hpe
    obtain ⟨e1, e2, e3⟩ := flat_index_inj hpos hch hlt2 hd2 hpe
    rw [heq]
    simp only [Option.elim]
    rw [elemOf_shift, e1, e2, e3]

theorem launch_out_none {α : Type}
    (ef : (ℕ → α × α) → (ℕ → α × α) → (ℕ → α × α) →
      ℕ → ℕ → ℕ → ℕ → ℕ → ℕ → ℕ → ℕ → ℕ → ℕ → α × α)
    (u w bs : ℕ → α × α) (s0 : ConvState α)
    (padding B L Lo Le Dp K gx gy gz : ℕ)
    (hgb : (sub32 Le K + 1) % W32 = Lo)
    {idx : ℕ} (hidx : ¬ idx < B * Dp * Lo) :
    (runWrites s0 (launchWrites ef u w bs padding B L Lo Le Dp K gx gy gz)).out idx
      = s0.out idx := by
  rw [runWrites_out, foldl_update_apply]
  have hnone : (launchWrites ef u w bs padding B L Lo Le Dp K gx gy gz).reverse.find?
      (fun e => e.1 == idx) = none := by
    rw [List.find?_eq_none]
    intro e he
    obtain ⟨b2, l2, t2, d2, hb2, hlt2, hd2, heq⟩ :=
      mem_launchWrites ef u w bs padding B L Lo Le Dp K gx gy gz hgb
        (List.mem_reverse.mp he)
    have hlt := flat_index_lt hb2 hlt2 hd2
    simp only [heq, beq_iff_eq]
    intro hcontra
    omega
  rw [hnone]
  rfl

theorem countP_launchWrites_all {α : Type}
    (ef : (ℕ → α × α) → (ℕ → α × α) → (ℕ → α × α) →
      ℕ → ℕ → ℕ → ℕ → ℕ → ℕ → ℕ → ℕ → ℕ → ℕ → α × α)
    (u w bs : ℕ → α × α)
    (padding B L Lo Le Dp K gx gy gz : ℕ)
    (hgb : (sub32 Le K + 1) % W32 = Lo)
    (hgz : B ≤ gz * BZ) (hgy : Lo ≤ gy * (BY * TILE_SIZE_Y))
    (hgx : Dp ≤ gx * (BX * TILE_SIZE_X)) (idx : ℕ) :
    (launchWrites ef u w bs padding B L Lo Le Dp K gx gy gz).countP
      (fun e => e.1 == idx) = if idx < B * Dp * Lo then 1 else 0 := by
  split
  case isTrue h =>
    obtain ⟨b, pos, ch, hb, hpos, hch, rfl⟩ := flat_index_decompose h
    exact countP_launchWrites ef u w bs padding B L Lo Le Dp K gx gy gz
      hgb hgz hgy hgx hb hpos hch
  case isFalse h =>
    rw [List.countP_eq_zero]
    intro e he
    obtain ⟨b2, l2, t2, d2, hb2, hlt2, hd2, heq⟩ :=
      mem_launchWrites ef u w bs padding B L Lo Le Dp K gx gy gz hgb he
    have hlt := flat_index_lt hb2 hlt2 hd2
    simp only [heq, beq_iff_eq]
    intro hcontra
    omega

/-! ### Element-level lemmas -/

/-- At `K = 3` the unrolled body and the generic loop body are the same
chain of `__hfma2` applications. -/
theorem conv1d_k3_body_eq {α : Type} [Mul α] [Add α] [Zero α]
    (u w bs : ℕ → α × α) (padding b l d t L D Le Lo : ℕ) :
    _conv1d_k_3 u w bs padding b l d t L D 3 Le Lo =
      conv1d_kernel_body u w bs padding b l d t L D 3 Le Lo := rfl

/-- Under no-underflow bounds the sampler is exactly the zero-padded
read of the claim. -/
theorem get_u_eq_padded {α : Type} [Zero α] (u : ℕ → α × α)
    {L p : ℕ} (hLp : p + 1 ≤ L + 2 * p) (hW : L + 2 * p < W32)
    (lt k b d D K : ℕ) :
    get_u u (L + 2 * p) lt p b k d L D K =
      if p ≤ lt + k ∧ lt + k < p + L
        then u (b * L * D + (lt + k - p) * D + d) else 0 := by
  rw [get_u, sub32_of_le hLp hW]
  by_cases hc : p ≤ lt + k ∧ lt + k < p + L
  · rw [if_neg (by omega), if_pos hc]
  · rw [if_pos (by omega), if_neg hc]

/-- The sampler reads only batch `b`'s slice of the input. -/
theorem get_u_congr {α : Type} [Zero α] (u1 u2 : ℕ → α × α)
    {L p : ℕ} (hLp : p + 1 ≤ L + 2 * p) (hW : L + 2 * p < W32)
    (lt k b d D K : ℕ) (hd : d < D)
    (hagree : ∀ j c, j < L → c < D →
      u1 (b * L * D + j * D + c) = u2 (b * L * D + j * D + c)) :
    get_u u1 (L + 2 * p) lt p b k d L D K =
      get_u u2 (L + 2 * p) lt p b k d L D K := by
  rw [get_u, get_u, sub32_of_le hLp hW]
  split
  · rfl
  case isFalse h =>
    exact hagree (lt + k - p) d (by omega) hd

/-- The generic body depends on the input only through batch `b`'s
slice. -/
theorem conv1d_kernel_body_congr_u {α : Type} [Mul α] [Add α] [Zero α]
    (u1 u2 w bs : ℕ → α × α) {L padding : ℕ}
    (hLp : padding + 1 ≤ L + 2 * padding) (hW : L + 2 * padding < W32)
    (b l d t D K Lo : ℕ) (hd : d < D)
    (hagree : ∀ j c, j < L → c < D →
      u1 (b * L * D + j * D + c) = u2 (b * L * D + j * D + c)) :
    conv1d_kernel_body u1 w bs padding b l d t L D K (L + 2 * padding) Lo =
      conv1d_kernel_body u2 w bs padding b l d t L D K (L + 2 * padding) Lo := by
  unfold conv1d_kernel_body
  congr 1
  funext acc k
  rw [get_u_congr u1 u2 hLp hW (l + t) k b d D K hd hagree]

theorem __hfma2_fst {α : Type} [Mul α] [Add α] (a b c : α × α) :
    (__hfma2 a b c).1 = a.1 * b.1 + c.1 := rfl

theorem __hfma2_snd {α : Type} [Mul α] [Add α] (a b c : α × α) :
    (__hfma2 a b c).2 = a.2 * b.2 + c.2 := rfl

/-- First lane of a `__hfma2` fold: bias lane plus the lane-wise sum of
products. -/
theorem foldl_hfma2_fst {α : Type} [AddCommMonoid α] [Mul α]
    (A W : ℕ → α × α) (c : α × α) (K : ℕ) :
    (((List.range K).foldl (fun acc k => __hfma2 (A k) (W k) acc) c)).1 =
      c.1 + ∑ k ∈ Finset.range K, (A k).1 * (W k).1 := by
  induction K with
  | zero => simp
  | succ K ih =>
    rw [List.range_succ, List.foldl_append, Finset.sum_range_succ]
    rw [List.foldl_cons, List.foldl_nil, __hfma2_fst, ih]
    abel

/-- Second lane of a `__hfma2` fold. -/
theorem foldl_hfma2_snd {α : Type} [AddCommMonoid α] [Mul α]
    (A W : ℕ → α × α) (c : α × α) (K : ℕ) :
    (((List.range K).foldl (fun acc k => __hfma2 (A k) (W k) acc) c)).2 =
      c.2 + ∑ k ∈ Finset.range K, (A k).2 * (W k).2 := by
  induction K with
  | zero => simp
  | succ K ih =>
    rw [List.range_succ, List.foldl_append, Finset.sum_range_succ]
    rw [List.foldl_cons, List.foldl_nil, __hfma2_snd, ih]
    abel

theorem conv1d_body_lane_spec {α : Type} [AddCommMonoid α] [Mul α]
    (u w bs : ℕ → α × α) {L padding K : ℕ}
    (hW : L + 2 * padding < W32) (hK : K ≤ L + 2 * padding)
    (b pos ch Dp Lo : ℕ) :
    lane ch (conv1d_kernel_body u w bs padding b pos (ch / 2) 0 L Dp K (L + 2 * padding) Lo)
      = spec_padded_conv (unpackedInput u L Dp) (unpackedWeight w Dp) (unpackedBias bs)
          L K padding b pos ch := by
  have hpar : ch % 2 = 0 ∨ ch % 2 = 1 := by omega
  rcases hpar with hpar | hpar
  · simp only [lane, hpar, reduceIte]
    simp only [conv1d_kernel_body, Nat.add_zero]
    rw [foldl_hfma2_fst (fun k => get_u u (L + 2 * padding) pos padding b k (ch / 2) L Dp K)
      (fun k => w (k * Dp + ch / 2)) (bs (ch / 2)) K]
    rw [spec_padded_conv]
    have h1 : (unpackedBias bs ch : α) = (bs (ch / 2)).1 := by
      simp [unpackedBias, lane, hpar]
    rw [h1]
    refine congrArg (fun s => (bs (ch / 2)).1 + s) (Finset.sum_congr rfl fun k hk => ?_)
    rw [Finset.mem_range] at hk
    rw [get_u_eq_padded u (by omega) hW, apply_ite (fun pr : α × α => pr.1)]
    simp [unpackedInput, unpackedWeight, lane, hpar]
  · simp only [lane, hpar, reduceIte]
    simp only [conv1d_kernel_body, Nat.add_zero]
    rw [foldl_hfma2_snd (fun k => get_u u (L + 2 * padding) pos padding b k (ch / 2) L Dp K)
      (fun k => w (k * Dp + ch / 2)) (bs (ch / 2)) K]
    rw [spec_padded_conv]
    have h1 : (unpackedBias bs ch : α) = (bs (ch / 2)).2 := by
      simp [unpackedBias, lane, hpar]
    rw [h1]
    refine congrArg (fun s => (bs (ch / 2)).2 + s) (Finset.sum_congr rfl fun k hk => ?_)
    rw [Finset.mem_range] at hk
    rw [get_u_eq_padded u (by omega) hW, apply_ite (fun pr : α × α => pr.2)]
    simp [unpackedInput, unpackedWeight, lane, hpar]

/-- Whatever variant the dispatcher picks, the per-element value is the
generic loop body (for `K = 3` by the unrolling equivalence). -/
theorem elemOf_variantFor {α : Type} [Mul α] [Add α] [Zero α]
    (dt : DType) (u w bs : ℕ → α × α) (padding b l d t L D K Le Lo : ℕ) :
    elemOf (variantFor dt K) u w bs padding b l d t L D K Le Lo =
      conv1d_kernel_body u w bs padding b l d t L D K Le Lo := by
  unfold variantFor
  split
  case isTrue h =>
    rcases h with ⟨hK, _⟩
    subst hK
    exact conv1d_k3_body_eq u w bs padding b l d t L D Le Lo
  case isFalse h => rfl

/-- C1: for every input of shape `[B, L, D]` with `D` even (`D = 2*Dp`),
weight `[K, D]`, bias `[D]`, and padding `p` with `K <= L + 2p`, every
element of the result of `conv1d_cuda_blh` on a supported dtype equals
the explicitly zero-padded unpadded depthwise convolution
`bias[d] + sum over k of padded_input[b, l+k, d] * weight[k, d]`
(`spec_padded_conv`) with the same weight and bias. -/
theorem conv1d_zero_padding_equiv {α : Type} [AddCommMonoid α] [Mul α]
    (dt : DType) (u w bs : ℕ → α × α) (B L Dp padding K : ℕ)
    (hdt : dt ≠ DType.other) (hK : K ≤ L + 2 * padding)
    (hW : L + 2 * padding + 1 < W32) (b pos ch : ℕ) (hb : b < B)
    (hpos : pos < L + 2 * padding + 1 - K) (hch : ch < 2 * Dp) :
    ((conv1d_cuda_blh dt u w bs B L (2 * Dp) padding K).final.out
        (b * Dp * (L + 2 * padding + 1 - K) + pos * Dp + ch / 2)).map (lane ch)
      = some (spec_padded_conv (unpackedInput u L Dp) (unpackedWeight w Dp) (unpackedBias bs)
          L K padding b pos ch) := by
  have hmod : (L + 2 * padding) % W32 = L + 2 * padding := Nat.mod_eq_of_lt (by omega)
  have hlo : (sub32 ((L + 2 * padding) % W32) K + 1) % W32 = L + 2 * padding + 1 - K :=
    uint_l_out_eq (by omega) hW
  rw [hmod] at hlo
  rw [conv1d_eq_launchResult dt u w bs B L (2 * Dp) padding K hdt]
  simp only [launchResult, hmod, hlo, Nat.mul_div_cancel_left Dp (by omega : 0 < 2)]
  rw [launch_out_eq (variantFor dt K) u w bs _ padding B L
      (L + 2 * padding + 1 - K) (L + 2 * padding) Dp K
      (cdiv (2 * Dp) (BX * TILE_SIZE_X * 2))
      (cdiv (L + 2 * padding + 1 - K) (BY * TILE_SIZE_Y)) (cdiv B BZ)
      hlo
      (cdiv_mul_ge B (by decide))
      (cdiv_mul_ge (L + 2 * padding + 1 - K) (by decide))
      ?hgx hb hpos (by omega)]
  case hgx =>
    have h2 := @cdiv_mul_ge (2 * Dp) (BX * TILE_SIZE_X * 2) (by decide)
    simp only [BX, TILE_SIZE_X] at h2 ⊢
    omega
  rw [Option.map_some']
  rw [elemOf_variantFor]
  rw [conv1d_body_lane_spec u w bs (by omega) hK b pos ch Dp]

/-- C9: for every batch index `b` and any two inputs that agree on batch
slice `b` (identical weight, bias, padding), the outputs agree on
`output[b]`: changing other batches' input never changes `output[b]`. -/
theorem conv1d_batch_independence {α : Type} [Mul α] [Add α] [Zero α]
    (dt : DType) (u1 u2 w bs : ℕ → α × α) (B L Dp padding K : ℕ)
    (hdt : dt ≠ DType.other) (hK : K ≤ L + 2 * padding + 1)
    (hW : L + 2 * padding + 1 < W32) (b : ℕ) (hb : b < B)
    (hagree : ∀ j c, j < L → c < Dp →
      u1 (b * L * Dp + j * Dp + c) = u2 (b * L * Dp + j * Dp + c)) :
    ∀ idx, b * Dp * (L + 2 * padding + 1 - K) ≤ idx →
      idx < (b + 1) * Dp * (L + 2 * padding + 1 - K) →
      (conv1d_cuda_blh dt u1 w bs B L (2 * Dp) padding K).final.out idx
        = (conv1d_cuda_blh dt u2 w bs B L (2 * Dp) padding K).final.out idx := by
  intro idx h1 h2
  have hsz : (b + 1) * Dp * (L + 2 * padding + 1 - K)
      = b * Dp * (L + 2 * padding + 1 - K) + Dp * (L + 2 * padding + 1 - K) := by ring
  have hDp : 0 < Dp := by
    rcases Nat.eq_zero_or_pos Dp with h0 | h0
    · subst h0; simp at hsz; omega
    · exact h0
  have hLo : 0 < L + 2 * padding + 1 - K := by
    rcases Nat.eq_zero_or_pos (L + 2 * padding + 1 - K) with h0 | h0
    · rw [h0] at hsz h1 h2; simp at hsz; omega
    · exact h0
  have hr : idx - b * Dp * (L + 2 * padding + 1 - K) < Dp * (L + 2 * padding + 1 - K) := by
    omega
  have hpos : (idx - b * Dp * (L + 2 * padding + 1 - K)) / Dp < L + 2 * padding + 1 - K := by
    rw [Nat.div_lt_iff_lt_mul hDp]
    calc idx - b * Dp * (L + 2 * padding + 1 - K) < Dp * (L + 2 * padding + 1 - K) := hr
      _ = (L + 2 * padding + 1 - K) * Dp := by ring
  have hch : (idx - b * Dp * (L + 2 * padding + 1 - K)) % Dp < Dp := Nat.mod_lt _ hDp
  have hdm := Nat.div_add_mod (idx - b * Dp * (L + 2 * padding + 1 - K)) Dp
  rw [Nat.mul_comm] at hdm
  have hidx : idx = b * Dp * (L + 2 * padding + 1 - K)
      + (idx - b * Dp * (L + 2 * padding + 1 - K)) / Dp * Dp
      + (idx - b * Dp * (L + 2 * padding + 1 - K)) % Dp := by
    omega
  rw [hidx]
  have hmod : (L + 2 * padding) % W32 = L + 2 * padding := Nat.mod_eq_of_lt (by omega)
  have hlo : (sub32 ((L + 2 * padding) % W32) K + 1) % W32 = L + 2 * padding + 1 - K :=
    uint_l_out_eq (by omega) hW
  rw [hmod] at hlo
  rw [conv1d_eq_launchResult dt u1 w bs B L (2 * Dp) padding K hdt,
    conv1d_eq_launchResult dt u2 w bs B L (2 * Dp) padding K hdt]
  simp only [launchResult, hmod, hlo, Nat.mul_div_cancel_left Dp (by omega : 0 < 2)]
  rw [launch_out_eq (variantFor dt K) u1 w bs _ padding B L
      (L + 2 * padding + 1 - K) (L + 2 * padding) Dp K
      (cdiv (2 * Dp) (BX * TILE_SIZE_X * 2))
      (cdiv (L + 2 * padding + 1 - K) (BY * TILE_SIZE_Y)) (cdiv B BZ)
      hlo (cdiv_mul_ge B (by decide))
      (cdiv_mul_ge (L + 2 * padding + 1 - K) (by decide))
      ?hgx1 hb hpos hch,
    launch_out_eq (variantFor dt K) u2 w bs _ padding B L
      (L + 2 * padding + 1 - K) (L + 2 * padding) Dp K
      (cdiv (2 * Dp) (BX * TILE_SIZE_X * 2))
      (cdiv (L + 2 * padding + 1 - K) (BY * TILE_SIZE_Y)) (cdiv B BZ)
      hlo (cdiv_mul_ge B (by decide))
      (cdiv_mul_ge (L + 2 * padding + 1 - K) (by decide))
      ?hgx2 hb hpos hch]
  case hgx1 =>
    have h3 := @cdiv_mul_ge (2 * Dp) (BX * TILE_SIZE_X * 2) (by decide)
    simp only [BX, TILE_SIZE_X] at h3 ⊢
    omega
  case hgx2 =>
    have h3 := @cdiv_mul_ge (2 * Dp) (BX * TILE_SIZE_X * 2) (by decide)
    simp only [BX, TILE_SIZE_X] at h3 ⊢
    omega
  rw [elemOf_variantFor, elemOf_variantFor]
  rcases Nat.eq_zero_or_pos K with hK0 | hK0
  · subst hK0
    rfl
  · rw [conv1d_kernel_body_congr_u u1 u2 w bs (by omega) (by omega) b _ _ 0 Dp K
      (L + 2 * padding + 1 - K) hch hagree]

/-- C3: for `K = 3`, any input, weight, bias and padding, and any
representation (any scalar type), the specialized width-3 kernel and the
generic loop kernel produce identical write events and identical output
state for identical input. -/
theorem conv1d_k3_generic_equiv {α : Type} [Mul α] [Add α] [Zero α]
    (u w bs : ℕ → α × α) (s0 : ConvState α)
    (padding B L Lo Le Dp gx gy gz : ℕ) :
    launchWrites (elemOf KVariant.k3) u w bs padding B L Lo Le Dp 3 gx gy gz
        = launchWrites (elemOf KVariant.generic) u w bs padding B L Lo Le Dp 3 gx gy gz
    ∧ runWrites s0 (launchWrites (elemOf KVariant.k3) u w bs padding B L Lo Le Dp 3 gx gy gz)
        = runWrites s0
            (launchWrites (elemOf KVariant.generic) u w bs padding B L Lo Le Dp 3 gx gy gz) := by
  have hl : launchWrites (elemOf KVariant.k3) u w bs padding B L Lo Le Dp 3 gx gy gz
      = launchWrites (elemOf KVariant.generic) u w bs padding B L Lo Le Dp 3 gx gy gz := by
    simp only [launchWrites, kernelBodyWrites, elemOf, conv1d_k3_body_eq]
  exact ⟨hl, by rw [hl]⟩

/-- C4: the dispatcher selects the specialized width-3 kernel exactly
when `K = 3` and the dtype is bfloat16 or float32 (the two eligible of
the three supported), and the generic kernel in every other supported
case; in particular float16 uses the generic kernel even when `K = 3`. -/
theorem conv1d_dispatch_selection {α : Type} [Mul α] [Add α] [Zero α]
    (dt : DType) (u w bs : ℕ → α × α) (B L D padding K : ℕ) :
    (conv1d_cuda_blh dt u w bs B L D padding K).launched
      = if dt = DType.other then none
        else if K = 3 ∧ (dt = DType.bf16 ∨ dt = DType.f32) then some KVariant.k3
        else some KVariant.generic := by
  rcases dt <;> by_cases hK : K = 3 <;> simp [conv1d_cuda_blh, launchResult, hK]

/-- C8: on a dtype outside the closed set {float16, bfloat16, float32},
`conv1d_cuda_blh` signals the unsupported-representation failure at
dispatch time and performs no computation: no kernel variant is
launched, no write event is produced, and no output element is written
(all left undefined). -/
theorem conv1d_unsupported_dtype {α : Type} [Mul α] [Add α] [Zero α]
    (u w bs : ℕ → α × α) (B L D padding K : ℕ) :
    (conv1d_cuda_blh DType.other u w bs B L D padding K).unsupported = true
    ∧ (conv1d_cuda_blh DType.other u w bs B L D padding K).launched = none
    ∧ (conv1d_cuda_blh DType.other u w bs B L D padding K).writes = []
    ∧ ∀ idx, (conv1d_cuda_blh DType.other u w bs B L D padding K).final.out idx = none := by
  by_cases hK : K = 3 <;> simp [conv1d_cuda_blh, hK]

/-- C7: on a supported representation with `D` even (`D = 2*Dp`), the
launch's write events hit every flat index of the `[B, L_out, D/2]`
packed output exactly once and no other index (the bounds-checked tiles
partition the output index set), and the final state's input, weight and
bias buffers are unchanged. -/
theorem conv1d_writes_exactly_once {α : Type} [Mul α] [Add α] [Zero α]
    (dt : DType) (u w bs : ℕ → α × α) (B L Dp padding K : ℕ)
    (hdt : dt ≠ DType.other) (hK : K ≤ L + 2 * padding + 1)
    (hW : L + 2 * padding + 1 < W32) :
    (∀ idx : ℕ,
      (conv1d_cuda_blh dt u w bs B L (2 * Dp) padding K).writes.countP
          (fun e => e.1 == idx)
        = if idx < B * Dp * (conv1d_cuda_blh dt u w bs B L (2 * Dp) padding K).l_out
          then 1 else 0)
    ∧ (conv1d_cuda_blh dt u w bs B L (2 * Dp) padding K).final.u = u
    ∧ (conv1d_cuda_blh dt u w bs B L (2 * Dp) padding K).final.weights = w
    ∧ (conv1d_cuda_blh dt u w bs B L (2 * Dp) padding K).final.bias = bs := by
  have hmod : (L + 2 * padding) % W32 = L + 2 * padding := Nat.mod_eq_of_lt (by omega)
  have hlo : (sub32 ((L + 2 * padding) % W32) K + 1) % W32 = L + 2 * padding + 1 - K :=
    uint_l_out_eq hK hW
  rw [hmod] at hlo
  rw [conv1d_eq_launchResult dt u w bs B L (2 * Dp) padding K hdt]
  simp only [launchResult, hmod, hlo, Nat.mul_div_cancel_left Dp (by omega : 0 < 2)]
  refine ⟨fun idx => ?_, runWrites_u _ _, runWrites_weights _ _, runWrites_bias _ _⟩
  refine countP_launchWrites_all (elemOf (variantFor dt K)) u w bs padding B L
    (L + 2 * padding + 1 - K) (L + 2 * padding) Dp K
    (cdiv (2 * Dp) (BX * TILE_SIZE_X * 2))
    (cdiv (L + 2 * padding + 1 - K) (BY * TILE_SIZE_Y)) (cdiv B BZ)
    hlo (cdiv_mul_ge B (by decide))
    (cdiv_mul_ge (L + 2 * padding + 1 - K) (by decide)) ?_ idx
  have h3 := @cdiv_mul_ge (2 * Dp) (BX * TILE_SIZE_X * 2) (by decide)
  simp only [BX, TILE_SIZE_X] at h3 ⊢
  omega

/-- C10: for every coordinate actually computed by either kernel
(`d < D/2`, `b < B`, position below `L_out`, tap `k < K` with
`K <= L + 2p`), the Option-returning total-indexing sampler
`get_u_checked` never hits its out-of-range branch: the guard implies
`p <= l+k <= L_eff-(p+1)`, hence the flat read index
`b*L*D + (l+k-p)*D + d` is below `B*L*D`. -/
theorem get_u_checked_safe {α : Type} [Zero α] (u : ℕ → α × α)
    (L padding K lt k b d B Dp : ℕ)
    (hd : d < Dp) (hb : b < B) (hk : k < K) (hK : K ≤ L + 2 * padding)
    (hlt : lt < L + 2 * padding + 1 - K) (hW : L + 2 * padding < W32) :
    get_u_checked u (B * (L * Dp)) (L + 2 * padding) lt padding b k d L Dp K
      = some (get_u u (L + 2 * padding) lt padding b k d L Dp K) := by
  unfold get_u_checked get_u readPacked
  rw [sub32_of_le (by omega) hW]
  split
  · rfl
  case isFalse h =>
    have hj : lt + k - padding < L := by omega
    have hcond : b * L * Dp + (lt + k - padding) * Dp + d < B * (L * Dp) := by
      have h2 := @flat_index_lt B Dp L b (lt + k - padding) d hb hj hd
      have e1 : b * L * Dp = b * Dp * L := by ring
      have e2 : B * (L * Dp) = B * Dp * L := by ring
      omega
    rw [if_pos hcond]

/-- C6 (amended): whenever `K <= L + 2p + 1` (and sizes are below
`2^32`), the returned sequence length is `L_out = L + 2p - K + 1`; the
unsigned dispatcher arithmetic does not wrap in this range. -/
theorem conv1d_l_out_amended {α : Type} [Mul α] [Add α] [Zero α]
    (dt : DType) (u w bs : ℕ → α × α) (B L D padding K : ℕ)
    (hK : K ≤ L + 2 * padding + 1) (hW : L + 2 * padding + 1 < W32) :
    (conv1d_cuda_blh dt u w bs B L D padding K).l_out = L + 2 * padding + 1 - K := by
  rw [conv1d_l_out]
  exact uint_l_out_eq hK hW

/-- C2 (amended): provided `p + 1 <= L_eff` (no unsigned underflow,
which holds for every kernel call with `L >= 1` or `p >= 1` since
`L_eff = L + 2p`), each of the three `get_u` overloads returns the
representation's zero value iff `l+k < p` or `l+k > L_eff-(p+1)` and
otherwise `input[b, l+k-p, d]`, with identical logic differing only in
the zero-constant construction. -/
theorem get_u_overloads_amended (u : ℕ → ℚ × ℚ) (L_eff l p b k d L D K : ℕ)
    (hp : p + 1 ≤ L_eff) (hW : L_eff < W32) :
    (get_u_half2 u L_eff l p b k d L D K
      = if l + k < p ∨ L_eff - (p + 1) < l + k then __float2half2_rn 0
        else u (b * L * D + (l + k - p) * D + d))
    ∧ (get_u_bfloat162 u L_eff l p b k d L D K
      = if l + k < p ∨ L_eff - (p + 1) < l + k then __float2bfloat162_rn 0
        else u (b * L * D + (l + k - p) * D + d))
    ∧ (get_u_float2 u L_eff l p b k d L D K
      = if l + k < p ∨ L_eff - (p + 1) < l + k then make_float2 0 0
        else u (b * L * D + (l + k - p) * D + d)) := by
  unfold get_u_half2 get_u_bfloat162 get_u_float2
  rw [sub32_of_le hp hW]
  exact ⟨rfl, rfl, rfl⟩

/-- C2 (counterexample): at `L_eff = 0`, `p = 0`, `l = k = 0` the claim
demands the zero value (since `l+k = 0 > L_eff-(p+1) = -1`), but the
code's unsigned subtraction wraps and `get_u_half2` performs the read
instead, returning the input value `(1, 1) /= 0`. -/
theorem get_u_underflow_counterexample :
    get_u_half2 (fun _ => (1, 1)) 0 0 0 0 0 0 0 1 1 = (1, 1)
    ∧ ((0 : ℤ) + 0 > (0 : ℤ) - (0 + 1))
    ∧ ((1 : ℚ), (1 : ℚ)) ≠ __float2half2_rn 0 := by
  refine ⟨?_, by decide, by decide⟩
  rfl

/-- C6 (counterexample): at `L = 1`, `p = 0`, `K = 5` the claimed length
`L + 2p - K + 1 = -3` is not the returned `l_out` (the dispatcher's
unsigned arithmetic wraps to `2^32 - 3`). -/
theorem conv1d_l_out_counterexample :
    ¬ (((conv1d_cuda_blh DType.f32 exampleU exampleW exampleB 1 1 2 0 5).l_out : ℤ)
        = 1 + 2 * 0 - 5 + 1) := by
  rw [conv1d_l_out]
  decide

set_option maxRecDepth 400000 in
/-- C5 (counterexample): on the spec's worked example the code computes
`output[4] = [9, 9]` (`4 + 5 + 0 = 9`), so the claimed `output[4] = [7, 7]`
is false. -/
theorem conv1d_worked_example_counterexample :
    (conv1d_cuda_blh DType.f32 exampleU exampleW exampleB 1 5 2 1 3).final.out 4
        = some ((9 : ℤ), 9)
    ∧ ¬ ((conv1d_cuda_blh DType.f32 exampleU exampleW exampleB 1 5 2 1 3).final.out 4
        = some ((7 : ℤ), 7)) := by
  constructor
  · decide
  · decide

set_option maxRecDepth 400000 in
/-- C5 amended: on every supported dtype (f32/bf16 run the specialized
width-3 kernel, f16 the generic one) the worked example yields
L_out = 5 and outputs [3,3],[6,6],[9,9],[12,12],[9,9]. -/
theorem conv1d_worked_example_amended :
    (conv1d_cuda_blh DType.f32 exampleU exampleW exampleB 1 5 2 1 3).l_out = 5
    ∧ (List.range 5).map
        (conv1d_cuda_blh DType.f32 exampleU exampleW exampleB 1 5 2 1 3).final.out
      = [some (3, 3), some (6, 6), some (9, 9), some (12, 12), some (9, 9)]
    ∧ (List.range 5).map
        (conv1d_cuda_blh DType.bf16 exampleU exampleW exampleB 1 5 2 1 3).final.out
      = [some (3, 3), some (6, 6), some (9, 9), some (12, 12), some (9, 9)]
    ∧ (List.range 5).map
        (conv1d_cuda_blh DType.f16 exampleU exampleW exampleB 1 5 2 1 3).final.out
      = [some (3, 3), some (6, 6), some (9, 9), some (12, 12), some (9, 9)] := by
  refine ⟨by decide, by decide, by decide, by decide⟩

/-! ### Witnesses -/

set_option maxRecDepth 400000 in
theorem conv1d_zero_padding_equiv_witness :
    ((conv1d_cuda_blh DType.f16 exampleU exampleW exampleB 1 5 (2 * 1) 1 3).final.out
        (0 * 1 * (5 + 2 * 1 + 1 - 3) + 0 * 1 + 0 / 2)).map (lane 0)
      = some (spec_padded_conv (unpackedInput exampleU 5 1) (unpackedWeight exampleW 1)
          (unpackedBias exampleB) 5 3 1 0 0 0) :=
  conv1d_zero_padding_equiv DType.f16 exampleU exampleW exampleB 1 5 1 1 3
    (by decide) (by decide) (by decide) 0 0 0 (by decide) (by decide) (by decide)

theorem get_u_overloads_amended_witness :
    (get_u_half2 (fun _ => (0, 0)) 2 0 0 0 0 0 1 1 1
      = if 0 + 0 < 0 ∨ 2 - (0 + 1) < 0 + 0 then __float2half2_rn 0
        else (fun _ => ((0 : ℚ), (0 : ℚ))) (0 * 1 * 1 + (0 + 0 - 0) * 1 + 0))
    ∧ (get_u_bfloat162 (fun _ => (0, 0)) 2 0 0 0 0 0 1 1 1
      = if 0 + 0 < 0 ∨ 2 - (0 + 1) < 0 + 0 then __float2bfloat162_rn 0
        else (fun _ => ((0 : ℚ), (0 : ℚ))) (0 * 1 * 1 + (0 + 0 - 0) * 1 + 0))
    ∧ (get_u_float2 (fun _ => (0, 0)) 2 0 0 0 0 0 1 1 1
      = if 0 + 0 < 0 ∨ 2 - (0 + 1) < 0 + 0 then make_float2 0 0
        else (fun _ => ((0 : ℚ), (0 : ℚ))) (0 * 1 * 1 + (0 + 0 - 0) * 1 + 0)) :=
  get_u_overloads_amended (fun _ => (0, 0)) 2 0 0 0 0 0 1 1 1 (by decide) (by decide)

theorem conv1d_l_out_amended_witness :
    (conv1d_cuda_blh DType.f32 exampleU exampleW exampleB 1 5 2 1 3).l_out
      = 5 + 2 * 1 + 1 - 3 :=
  conv1d_l_out_amended DType.f32 exampleU exampleW exampleB 1 5 2 1 3
    (by decide) (by decide)

theorem conv1d_writes_exactly_once_witness :
    (conv1d_cuda_blh DType.f16 exampleU exampleW exampleB 1 2 (2 * 1) 0 1).writes.countP
        (fun e => e.1 == 0)
      = if 0 < 1 * 1 * (conv1d_cuda_blh DType.f16 exampleU exampleW exampleB 1 2 (2 * 1) 0 1).l_out
        then 1 else 0 :=
  (conv1d_writes_exactly_once DType.f16 exampleU exampleW exampleB 1 2 1 0 1
    (by decide) (by decide) (by decide)).1 0

theorem conv1d_batch_independence_witness :
    (conv1d_cuda_blh DType.f16 exampleU exampleW exampleB 2 1 (2 * 1) 0 1).final.out 0
      = (conv1d_cuda_blh DType.f16 (fun i => if i = 0 then exampleU 0 else (42, 42))
          exampleW exampleB 2 1 (2 * 1) 0 1).final.out 0 :=
  conv1d_batch_independence DType.f16 exampleU
    (fun i => if i = 0 then exampleU 0 else (42, 42)) exampleW exampleB 2 1 1 0 1
    (by decide) (by decide) (by decide) 0 (by decide)
    (fun j c hj hc => by
      have hj0 : j = 0 := by omega
      have hc0 : c = 0 := by omega
      subst hj0
      subst hc0
      rfl)
    0 (by decide) (by decide)

theorem get_u_checked_safe_witness :
    get_u_checked exampleU (1 * (2 * 1)) (2 + 2 * 0) 0 0 0 0 0 2 1 1
      = some (get_u exampleU (2 + 2 * 0) 0 0 0 0 0 2 1 1) :=
  get_u_checked_safe exampleU 2 0 1 0 0 0 0 1 1 (by decide) (by decide) (by decide)
    (by decide) (by decide) (by decide)
